import Mathlib

/-!
Shallow embedding of the sudoku-wave solver (src/solver/state.rs and
src/solver/solver.rs) together with proofs checking the specification's
claims against it.

Conventions of the embedding:
* `u16` values become `Nat`; every bit operation used by the source
  (`&`, `count_ones`) is total on `Nat` and agrees with the `u16`
  operation on values below `2 ^ 16`, which the well-formedness
  predicates below guarantee.
* The 9×9 array `[[GameCell; 9]; 9]` becomes a `List (List GameCell)`
  constrained by a well-formedness predicate (`WFShape`).
* Rust panics (`unwrap` on `None`, failed `assert!`) are modelled by
  `Option`, `none` meaning the program aborts.  Helper functions whose
  panicking branches are unreachable from every claim (`value_to_bit`,
  `unset_bit_pattern`, `point_to_house_coord` on out-of-range input)
  return a junk value on those branches; no theorem below observes them.
* `thread_rng` choices are modelled by explicit pick arguments: a `Nat`
  index selects an element of the candidate list, so every run of the
  randomized program corresponds to some choice of picks.
-/

set_option maxRecDepth 10000

/-- Number of set bits of a 16-bit value, mirroring `u16::count_ones`.
Total on `Nat`; agrees with the hardware popcount for inputs below `2 ^ 16`. -/
def count_ones (n : Nat) : Nat :=
  ((List.range 16).filter (fun i => n.testBit i)).length

/-- `GameCell` from src/solver/state.rs: a superposition bitmask or a fixed value. -/
inductive GameCell where
  | SuperState (v : Nat)
  | Fixed (v : Nat)
  deriving DecidableEq, Repr

/-- `ALL_CELL_POSSIBILITIES`: the full 9-bit mask `0b1_1111_1111`. -/
def ALL_CELL_POSSIBILITIES : Nat := 0b111111111

instance : Inhabited GameCell := ⟨GameCell.SuperState ALL_CELL_POSSIBILITIES⟩

namespace GameCell

/-- `GameCell::pop_count`: set-bit count for a `SuperState`, `none` for `Fixed`. -/
def pop_count : GameCell → Option Nat
  | SuperState v => some (count_ones v)
  | Fixed _ => none

/-- `GameCell::value_to_bit`.  The source panics outside `1..=9`; that branch is
unreachable from every call site in this development and returns `0`. -/
def value_to_bit (value : Nat) : Nat :=
  match value with
  | 1 => 0b000000001
  | 2 => 0b000000010
  | 3 => 0b000000100
  | 4 => 0b000001000
  | 5 => 0b000010000
  | 6 => 0b000100000
  | 7 => 0b001000000
  | 8 => 0b010000000
  | 9 => 0b100000000
  | _ => 0

/-- `GameCell::unset_bit_pattern`.  The source panics outside `1..=9`; that
branch is unreachable from every theorem below and returns `0`. -/
def unset_bit_pattern (value : Nat) : Nat :=
  match value with
  | 1 => 0b111111110
  | 2 => 0b111111101
  | 3 => 0b111111011
  | 4 => 0b111110111
  | 5 => 0b111101111
  | 6 => 0b111011111
  | 7 => 0b110111111
  | 8 => 0b101111111
  | 9 => 0b011111111
  | _ => 0

/-- `GameCell::potential_values`: decode the mask into the ascending list of
values `1..=9` whose bit is set; `none` for `Fixed`. -/
def potential_values : GameCell → Option (List Nat)
  | SuperState v =>
      some ((List.range' 1 9).filter (fun i => decide (value_to_bit i &&& v = value_to_bit i)))
  | Fixed _ => none

/-- `GameCell::random_potential` with the rng draw made explicit: `pick`
indexes into the candidate list.  The outer `none` models the source's
panic (`choose` on an empty slice yields `None`, then `.unwrap()`). -/
def random_potential (c : GameCell) (pick : Nat) : Option (Option Nat) :=
  match potential_values c with
  | none => some none
  | some vs =>
      match vs.get? (pick % vs.length) with
      | some v => some (some v)
      | none => none

/-- `GameCell::constrain`: clear the source's fixed value from a `SuperState`
target; report whether the mask changed.  Returns the updated cell in place
of the `&mut self` write. -/
def constrain (self cell : GameCell) : GameCell × Bool :=
  match cell with
  | Fixed constraint =>
      match self with
      | SuperState v =>
          let v' := v &&& unset_bit_pattern constraint
          (SuperState v', decide (v ≠ v'))
      | Fixed _ => (self, false)
  | SuperState _ => (self, false)

end GameCell

/-- `Point` from src/solver/state.rs. -/
structure Point where
  x : Nat
  y : Nat
  deriving DecidableEq, Repr

/-- `GameState`: the 9×9 grid, stored row-major as in the source. -/
structure GameState where
  cells : List (List GameCell)
  deriving DecidableEq, Repr

instance : Inhabited GameState :=
  ⟨⟨List.replicate 9 (List.replicate 9 (default : GameCell))⟩⟩

namespace GameState

/-- `GameState::get`: `self.cells[pos.y][pos.x]`. -/
def get (s : GameState) (pos : Point) : GameCell :=
  (s.cells.getD pos.y []).getD pos.x default

/-- The write through `GameState::get_mut`: `self.cells[pos.y][pos.x] = c`. -/
def set (s : GameState) (pos : Point) (c : GameCell) : GameState :=
  ⟨s.cells.set pos.y ((s.cells.getD pos.y []).set pos.x c)⟩

/-- `GameState::in_row`: the nine points `(i, row)`. -/
def in_row (row : Nat) : List Point :=
  (List.range 9).map (fun i => Point.mk i row)

/-- `GameState::in_col`: the nine points `(col, i)`. -/
def in_col (col : Nat) : List Point :=
  (List.range 9).map (fun i => Point.mk col i)

/-- `point_to_house_coord` inside `GameState::in_house`.  The source panics
above 8; that branch returns `0` and is unreachable from every theorem. -/
def point_to_house_coord (x : Nat) : Nat :=
  if x ≤ 2 then 0 else if x ≤ 5 then 1 else if x ≤ 8 then 2 else 0

/-- `GameState::in_house`: the nine points of the 3×3 house containing `pos`. -/
def in_house (pos : Point) : List Point :=
  let start_house_x := point_to_house_coord pos.x * 3
  let start_house_y := point_to_house_coord pos.y * 3
  ((List.range 3).map (fun i =>
      (List.range 3).map (fun j => Point.mk (start_house_x + j) (start_house_y + i)))).flatten

/-- `GameState::cells` (the `all_cells` iterator): enumerate rows and columns
and yield `(Point::new(i, j), cell)` where `i` is the row index. -/
def cellsSeq (s : GameState) : List (Point × GameCell) :=
  (s.cells.enum.map (fun ir =>
      ir.2.enum.map (fun jc => (Point.mk ir.1 jc.1, jc.2)))).flatten

end GameState

/-- UTF-8 byte size of one character, as `str::len` counts it. -/
def charUtf8Size (c : Char) : Nat :=
  if c.toNat < 0x80 then 1
  else if c.toNat < 0x800 then 2
  else if c.toNat < 0x10000 then 3
  else 4

/-- UTF-8 byte length of a line, mirroring Rust's `str::len`. -/
def utf8Len (l : List Char) : Nat :=
  (l.map charUtf8Size).sum

/-- Prepend a character to the first segment of a split. -/
def consHeadAux (c : Char) : List (List Char) → List (List Char)
  | l :: ls => (c :: l) :: ls
  | [] => [[c]]

/-- Split at `'\n'` and `"\r\n"` like `str::lines`, before dropping a trailing
empty segment.  Always returns at least one segment. -/
def linesCore : List Char → List (List Char)
  | [] => [[]]
  | [c] =>
      if c = '\n' then [[], []]
      else [[c]]
  | c :: c2 :: rest =>
      if c = '\n' then [] :: linesCore (c2 :: rest)
      else if c = '\r' ∧ c2 = '\n' then [] :: linesCore rest
      else consHeadAux c (linesCore (c2 :: rest))

/-- Rust's `str::lines`: `linesCore`, with the trailing empty segment produced
by a final line terminator removed. -/
def rustLines (s : List Char) : List (List Char) :=
  let p := linesCore s
  if p.getLast? = some [] then p.dropLast else p

/-- `char::to_digit(10)`: the value of an ASCII decimal digit. -/
def charToDigit10 (c : Char) : Option Nat :=
  if '0' ≤ c ∧ c ≤ '9' then some (c.toNat - '0'.toNat) else none

/-- One character of `GameState::parse`: a digit becomes `Fixed`, `'.'` keeps
the default full-mask `SuperState`, anything else is an error. -/
def parseCell (c : Char) : Except String GameCell :=
  match charToDigit10 c with
  | some value => .ok (GameCell.Fixed value)
  | none =>
      if c = '.' then .ok (default : GameCell)
      else .error "Invalid character input"

/-- One line of `GameState::parse`, character by character in order. -/
def parseRow : List Char → Except String (List GameCell)
  | [] => .ok []
  | c :: cs =>
      match parseCell c with
      | .error e => .error e
      | .ok g =>
          match parseRow cs with
          | .error e => .error e
          | .ok gs => .ok (g :: gs)

/-- The per-line body of `GameState::parse`: length check, then characters. -/
def parseLine (l : List Char) : Except String (List GameCell) :=
  if utf8Len l ≠ 9 then .error "Incorrect line length" else parseRow l

/-- All lines of `GameState::parse`, in order, failing fast. -/
def parseRows : List (List Char) → Except String (List (List GameCell))
  | [] => .ok []
  | l :: ls =>
      match parseLine l with
      | .error e => .error e
      | .ok r =>
          match parseRows ls with
          | .error e => .error e
          | .ok rs => .ok (r :: rs)

/-- `GameState::parse`. -/
def parse (problem : List Char) : Except String GameState :=
  if (rustLines problem).length ≠ 9 then .error "Incorrect input number of lines"
  else (parseRows (rustLines problem)).map (fun rows => ⟨rows⟩)

/-- Decimal digits of a natural number, as `u16::to_string` prints them. -/
def natChars (n : Nat) : List Char := Nat.toDigits 10 n

/-- `Display for GameCell`: `'.'` for a superposition, the decimal value for
a fixed cell. -/
def cellChars : GameCell → List Char
  | GameCell.SuperState _ => ['.']
  | GameCell.Fixed v => natChars v

/-- `Display for GameState`: each row's cells followed by a newline. -/
def render (s : GameState) : List Char :=
  (s.cells.map (fun line => (line.map cellChars).flatten ++ ['\n'])).flatten

/-- The `u32::MAX` sentinel used by `lowest_entropy`'s `unwrap_or`. -/
def u32MAX : Nat := 4294967295

/-- The key of `min_by_key` in `lowest_entropy`: `pop_count().unwrap_or(u32::MAX)`. -/
def entropyKey (c : GameCell) : Nat :=
  match c.pop_count with
  | some k => k
  | none => u32MAX

/-- Rust's `Iterator::min_by_key`: the first element with minimal key. -/
def minByKeyFirst (l : List α) (f : α → Nat) : Option α :=
  l.foldl (fun acc x =>
    match acc with
    | none => some x
    | some a => if f x < f a then some x else some a) none

/-- `lowest_entropy` with the rng draw made explicit: find the minimal
popcount, then pick among the cells sharing it (`choose`) by index. -/
def lowest_entropy (s : GameState) (pick : Nat) : Option Point :=
  match minByKeyFirst (s.cellsSeq) (fun pc => entropyKey pc.2) with
  | none => none
  | some min =>
      match min.2.pop_count with
      | some min_value =>
          let ties := s.cellsSeq.filter (fun pc => decide (pc.2.pop_count = some min_value))
          (ties.get? (pick % ties.length)).map Prod.fst
      | none => none

/-- `affected_cells`: column, row, then house of the source point. -/
def affected_cells (source : Point) : List Point :=
  GameState.in_col source.x ++ GameState.in_row source.y ++ GameState.in_house source

/-- The worklist of `constrain` in src/solver/solver.rs.  The Rust `Vec` pops
from its back; the list here stores the back of the `Vec` at its head, so a
`queue.append(&mut affected_cells(p))` becomes prepending the reversed
neighbor list.  `fuel` bounds the iteration count; `none` means the fuel ran
out (the termination theorem below shows enough fuel always exists). -/
def constrainLoop : Nat → GameState → GameCell → List Point → Option GameState
  | 0, _, _, _ => none
  | _ + 1, s, _, [] => some s
  | fuel + 1, s, cv, current :: rest =>
      let res := (s.get current).constrain cv
      let s' := s.set current res.1
      if res.2 then constrainLoop fuel s' cv ((affected_cells current).reverse ++ rest)
      else constrainLoop fuel s' cv rest

/-- Candidate bits of one cell: the popcount of a `SuperState` mask. -/
def cellBits : GameCell → Nat
  | GameCell.SuperState v => count_ones v
  | GameCell.Fixed _ => 0

/-- Total candidate bits remaining in the grid: the termination measure of
the propagation worklist. -/
def gridBits (s : GameState) : Nat :=
  (s.cells.map (fun r => (r.map cellBits).sum)).sum

/-- `constrain` in src/solver/solver.rs: propagate the fixed value at
`source` through the worklist.  `none` models the `assert!` failing (the
source cell is not `Fixed`) or fuel exhaustion, which the termination
theorem rules out. -/
def constrain (s : GameState) (source : Point) : Option GameState :=
  let constrained_value := s.get source
  match constrained_value with
  | GameCell.Fixed _ =>
      constrainLoop (28 * gridBits s + 28) s constrained_value
        ((affected_cells source).reverse)
  | GameCell.SuperState _ => none

/-- One iteration of the `solve` loop: Select (via `lowest_entropy`), then
Assign and propagate.  `none` models a panic; `some none` means
`lowest_entropy` found nothing and the loop breaks; `some (some s')` is the
state after a full iteration. -/
def solveStep (s : GameState) (pick1 pick2 : Nat) : Option (Option GameState) :=
  match lowest_entropy s pick1 with
  | none => some none
  | some lowest =>
      match (s.get lowest).random_potential pick2 with
      | none => none
      | some none => none
      | some (some chosen_value) =>
          let s1 := s.set lowest (GameCell.Fixed chosen_value)
          match constrain s1 lowest with
          | none => none
          | some s2 => some (some s2)

/-- The `loop` of `solve`, with one `(pick1, pick2)` pair consumed per
iteration and a fuel bound of one more than the number of iterations. -/
def solveLoop : Nat → GameState → List (Nat × Nat) → Option GameState
  | 0, _, _ => none
  | fuel + 1, s, picks =>
      let p := picks.headD (0, 0)
      match solveStep s p.1 p.2 with
      | none => none
      | some none => some s
      | some (some s') => solveLoop fuel s' picks.tail

/-- `solve` in src/solver/solver.rs: parse, then iterate Select/Assign.
`Except.error` is the parse failure; inside, `none` models a panic. -/
def solve (problem : List Char) (picks : List (Nat × Nat)) :
    Except String (Option GameState) :=
  (parse problem).map (fun s => solveLoop 82 s picks)

/-- Shape well-formedness guaranteed by the Rust type `[[GameCell; 9]; 9]`. -/
def WFShape (s : GameState) : Prop :=
  s.cells.length = 9 ∧ ∀ r ∈ s.cells, r.length = 9

/-- Mask bound: a `SuperState` holds a 9-bit set, the invariant of the
specification's data model (and of every state reachable from `parse`). -/
def cellMaskOk (c : GameCell) : Prop :=
  match c with
  | GameCell.SuperState v => v < 512
  | GameCell.Fixed _ => True

/-- Full well-formedness: 9×9 shape with 9-bit candidate masks. -/
def WFState (s : GameState) : Prop :=
  s.cells.length = 9 ∧ ∀ r ∈ s.cells, r.length = 9 ∧ ∀ c ∈ r, cellMaskOk c

instance : DecidablePred cellMaskOk := fun c => by
  unfold cellMaskOk; cases c <;> infer_instance

instance : DecidablePred WFState := fun s => by
  unfold WFState; infer_instance

instance : DecidablePred WFShape := fun s => by
  unfold WFShape; infer_instance

/-- The example puzzle of spec §8 (also the fixtures of the source's tests). -/
def examplePuzzle : List Char :=
  ("91..8....\n4..279...\n.73....4.\n3...4...1\n5..3.1..2\n" ++
   "8...6...4\n.4....63.\n...527..9\n....3..87").toList

/-- The grid parsed from the example puzzle. -/
def exampleGrid : GameState :=
  match parse examplePuzzle with
  | .ok g => g
  | .error _ => default

instance {ε α : Type} [DecidableEq ε] [DecidableEq α] : DecidableEq (Except ε α) :=
  fun a b =>
    match a, b with
    | .ok x, .ok y =>
        if h : x = y then isTrue (by rw [h]) else isFalse (fun hc => by cases hc; exact h rfl)
    | .error e, .error f =>
        if h : e = f then isTrue (by rw [h]) else isFalse (fun hc => by cases hc; exact h rfl)
    | .ok _, .error _ => isFalse (fun hc => by cases hc)
    | .error _, .ok _ => isFalse (fun hc => by cases hc)

/-- A grid whose cell at row 4, column 4 is a `Candidates` cell with mask
zero and whose other cells are all `Fixed`: the failing input for C3. -/
def zeroMaskGrid : GameState :=
  ⟨(List.range 9).map (fun y => (List.range 9).map (fun x =>
      if y = 4 ∧ x = 4 then GameCell.SuperState 0 else GameCell.Fixed 1))⟩

/-- C3 (code bug): on a grid containing a zero-mask `Candidates` cell,
Select ranks that cell first (popcount 0 is minimal) and Assign then panics
— `choose` on the empty candidate list yields `None` and the source
`unwrap`s it — instead of surfacing a `Contradiction` error.  `none` is the
model's panic. -/
theorem c3_zero_mask_panics :
    (GameCell.SuperState 0) ∈ zeroMaskGrid.cellsSeq.map Prod.snd ∧
    (GameCell.SuperState 0).pop_count = some 0 ∧
    (∀ pick1 pick2 : Nat, solveStep zeroMaskGrid pick1 pick2 = none) := by
  refine ⟨by decide, by decide, fun p1 p2 => ?_⟩
  have hties : zeroMaskGrid.cellsSeq.filter
      (fun pc => decide (pc.2.pop_count = some 0)) =
      [(Point.mk 4 4, GameCell.SuperState 0)] := by decide
  have hle : lowest_entropy zeroMaskGrid p1 = some (Point.mk 4 4) := by
    show ((zeroMaskGrid.cellsSeq.filter
        (fun pc => decide (pc.2.pop_count = some 0))).get?
          (p1 % (zeroMaskGrid.cellsSeq.filter
            (fun pc => decide (pc.2.pop_count = some 0))).length)).map Prod.fst =
        some (Point.mk 4 4)
    rw [hties]
    simp [Nat.mod_one]
  have hget : zeroMaskGrid.get (Point.mk 4 4) = GameCell.SuperState 0 := by decide
  have hrp : (GameCell.SuperState 0).random_potential p2 = none := rfl
  simp only [solveStep, hle, hget, hrp]

/-- C9 counterexample: the mask `0b0_1010_1010` (= 170) has four set bits,
not five; `pop_count` returns `some 4` on it, refuting the claimed
`Some(5)`. -/
theorem c9_counterexample :
    (GameCell.SuperState 0b010101010).pop_count = some 4 ∧
    (GameCell.SuperState 0b010101010).pop_count ≠ some 5 := by decide

/-- C9 (amended): `pop_count` is `some 9` on the full mask, `some 5` on the
mask `0b1_1010_1010` (the mask the source's test uses), and `none` on every
`Fixed` cell. -/
theorem c9_pop_count_amended :
    (GameCell.SuperState ALL_CELL_POSSIBILITIES).pop_count = some 9 ∧
    (GameCell.SuperState 0b110101010).pop_count = some 5 ∧
    ∀ v : Nat, (GameCell.Fixed v).pop_count = none :=
  ⟨by decide, by decide, fun _ => rfl⟩

/-- C10: `GameCell::constrain` returns `false` and leaves the target cell
unchanged whenever the target is `Fixed` or the source is not `Fixed`; in
particular a `SuperState` source never modifies any cell. -/
theorem c10_constrain_frame (self cell : GameCell)
    (h : (∃ v, self = GameCell.Fixed v) ∨ (∃ m, cell = GameCell.SuperState m)) :
    self.constrain cell = (self, false) := by
  rcases h with ⟨v, rfl⟩ | ⟨m, rfl⟩
  · cases cell <;> rfl
  · rfl

/-- Witness for C10 at a concrete input. -/
theorem c10_constrain_frame_witness :
    (GameCell.Fixed 5).constrain (GameCell.Fixed 3) = (GameCell.Fixed 5, false) :=
  c10_constrain_frame (GameCell.Fixed 5) (GameCell.Fixed 3) (Or.inl ⟨5, rfl⟩)

/-- C1 counterexample: `all_cells` on the parsed example puzzle yields the
pair `(Point { x := 0, y := 1 }, Fixed 1)` (row 0, column 1 of the array),
but `get` at that very point reads `cells[1][0]`, which is `Fixed 4`: the
yielded points are transposed relative to `get`. -/
theorem c1_counterexample :
    (Point.mk 0 1, GameCell.Fixed 1) ∈ exampleGrid.cellsSeq ∧
    exampleGrid.get (Point.mk 0 1) = GameCell.Fixed 4 ∧
    GameCell.Fixed 4 ≠ GameCell.Fixed 1 := by decide

/-- C2 (code bug): on the §8 example puzzle there is an execution in which
no candidate mask is ever zero — the grid is freshly parsed, nothing has
been constrained — yet `solve` panics during its very first Select/Assign:
the tie-break may choose the yielded point `(0, 3)`, whose transposed array
cell `cells[3][0]` is the clue `Fixed 3`, so `random_potential` returns
`None` and `solve` `unwrap`s it.  `Except.ok none` is "parse succeeded,
then the process aborted". -/
theorem c2_solve_panics :
    parse examplePuzzle = .ok exampleGrid ∧
    exampleGrid.cellsSeq.all (fun pc => decide (pc.2.pop_count ≠ some 0)) = true ∧
    lowest_entropy exampleGrid 1 = some (Point.mk 0 3) ∧
    exampleGrid.get (Point.mk 0 3) = GameCell.Fixed 3 ∧
    solve examplePuzzle [(1, 0)] = .ok none := by decide

/-- C5 (code bug): the claimed loop invariant fails after the very first
full Select/Assign-and-propagate iteration on the example puzzle.  With
picks (0, 0) the iteration fixes value 1 at `cells[2][0]` and propagates
only that value; the initial clue `Fixed 9` at `cells[0][0]` was never
propagated, so its row neighbor `cells[0][2]` (reached via
`get (Point { x := 2, y := 0 })`) still carries bit 8 — the value 9 — in
its mask 510 after the iteration. -/
theorem c5_invariant_violated :
    (solveStep exampleGrid 0 0).map (Option.map (fun g1 =>
        (g1.get (Point.mk 0 0), g1.get (Point.mk 2 0)))) =
      some (some (GameCell.Fixed 9, GameCell.SuperState 510)) ∧
    Point.mk 0 0 ∈ GameState.in_row 0 ∧
    Point.mk 2 0 ∈ GameState.in_row 0 ∧
    Nat.testBit 510 (9 - 1) = true := by
  refine ⟨by decide, by decide, by decide, by decide⟩

/-- For values `1..=9`, the unset pattern is the full 9-bit mask with bit
`v - 1` removed. -/
theorem unset_bit_pattern_eq {v : Nat} (h1 : 1 ≤ v) (h9 : v ≤ 9) :
    GameCell.unset_bit_pattern v = 511 - 2 ^ (v - 1) := by
  interval_cases v <;> rfl

/-- Bits of the unset pattern below 9: everything except bit `v - 1`. -/
theorem testBit_unset_pattern {v i : Nat} (h1 : 1 ≤ v) (h9 : v ≤ 9) (hi : i < 9) :
    (511 - 2 ^ (v - 1)).testBit i = decide (i ≠ v - 1) := by
  interval_cases v <;> interval_cases i <;> decide

/-- A 9-bit value has no bits at positions 9 and above. -/
theorem testBit_ge_false {m i : Nat} (hm : m < 512) (hi : 9 ≤ i) :
    m.testBit i = false :=
  Nat.testBit_eq_false_of_lt
    (lt_of_lt_of_le hm (le_trans (by norm_num) (Nat.pow_le_pow_right (by norm_num) hi)))

/-- Masking a 9-bit value with the unset pattern is the identity exactly
when bit `v - 1` is already clear. -/
theorem land_pat_self_iff {v m : Nat} (h1 : 1 ≤ v) (h9 : v ≤ 9) (hm : m < 512) :
    m &&& (511 - 2 ^ (v - 1)) = m ↔ m.testBit (v - 1) = false := by
  constructor
  · intro h
    have := congrArg (fun n => n.testBit (v - 1)) h
    simp only [Nat.testBit_land] at this
    rw [testBit_unset_pattern h1 h9 (by omega)] at this
    simpa using this.symm
  · intro h
    apply Nat.eq_of_testBit_eq
    intro i
    rw [Nat.testBit_land]
    by_cases hge : 9 ≤ i
    · rw [testBit_ge_false hm hge]; simp
    · push_neg at hge
      rw [testBit_unset_pattern h1 h9 hge]
      by_cases hiv : i = v - 1
      · subst hiv; simp [h]
      · simp [hiv]

/-- The changed flag computed by `GameCell::constrain` equals the tested bit. -/
theorem decide_ne_land {v m : Nat} (h1 : 1 ≤ v) (h9 : v ≤ 9) (hm : m < 512) :
    decide (m ≠ m &&& (511 - 2 ^ (v - 1))) = m.testBit (v - 1) := by
  rcases h : m.testBit (v - 1) with _ | _
  · have := (land_pat_self_iff h1 h9 hm).mpr h
    simp [this]
  · have : ¬ (m &&& (511 - 2 ^ (v - 1)) = m) := fun hc => by
      rw [(land_pat_self_iff h1 h9 hm).mp hc] at h; cases h
    simp [decide_eq_true_iff]
    exact fun hc => this hc.symm

/-- C6: for `v` in `1..9` and a 9-bit `Candidates` mask `m`, `constrain`
with a `Fixed(v)` source sets the mask to `m` with exactly bit `v - 1`
cleared (restoring that bit recovers `m`, and no other bit moves), returns
`true` iff bit `v - 1` was set in `m`, and is idempotent: the second
application returns `false` and leaves the mask unchanged. -/
theorem c6_constrain_clears_bit (v m : Nat) (h1 : 1 ≤ v) (h9 : v ≤ 9) (hm : m < 512) :
    (GameCell.SuperState m).constrain (GameCell.Fixed v) =
      (GameCell.SuperState (m &&& (511 - 2 ^ (v - 1))), m.testBit (v - 1)) ∧
    (m &&& (511 - 2 ^ (v - 1))) ||| (m &&& 2 ^ (v - 1)) = m ∧
    (m &&& (511 - 2 ^ (v - 1))).testBit (v - 1) = false ∧
    (GameCell.SuperState (m &&& (511 - 2 ^ (v - 1)))).constrain (GameCell.Fixed v) =
      (GameCell.SuperState (m &&& (511 - 2 ^ (v - 1))), false) := by
  have hpat := unset_bit_pattern_eq h1 h9
  have hm' : m &&& (511 - 2 ^ (v - 1)) < 512 := lt_of_le_of_lt Nat.and_le_left hm
  have hbit : (m &&& (511 - 2 ^ (v - 1))).testBit (v - 1) = false := by
    rw [Nat.testBit_land, testBit_unset_pattern h1 h9 (by omega)]
    simp
  refine ⟨?_, ?_, hbit, ?_⟩
  · show (GameCell.SuperState (m &&& GameCell.unset_bit_pattern v),
        decide (m ≠ m &&& GameCell.unset_bit_pattern v)) = _
    rw [hpat, decide_ne_land h1 h9 hm]
  · apply Nat.eq_of_testBit_eq
    intro i
    rw [Nat.testBit_lor, Nat.testBit_land, Nat.testBit_land]
    by_cases hge : 9 ≤ i
    · rw [testBit_ge_false hm hge]; simp
    · push_neg at hge
      rw [testBit_unset_pattern h1 h9 hge, Nat.testBit_two_pow]
      by_cases hiv : i = v - 1
      · subst hiv; simp
      · simp [hiv, Ne.symm hiv]
  · show (GameCell.SuperState ((m &&& (511 - 2 ^ (v - 1))) &&& GameCell.unset_bit_pattern v),
        decide ((m &&& (511 - 2 ^ (v - 1))) ≠
          (m &&& (511 - 2 ^ (v - 1))) &&& GameCell.unset_bit_pattern v)) = _
    rw [hpat]
    rw [(land_pat_self_iff h1 h9 hm').mpr hbit]
    simp

/-- Witness for C6 at `v = 2`, `m = 511` (the full mask). -/
theorem c6_constrain_clears_bit_witness :
    (GameCell.SuperState 511).constrain (GameCell.Fixed 2) =
      (GameCell.SuperState (511 &&& (511 - 2 ^ (2 - 1))), Nat.testBit 511 (2 - 1)) ∧
    (511 &&& (511 - 2 ^ (2 - 1))) ||| (511 &&& 2 ^ (2 - 1)) = 511 ∧
    (511 &&& (511 - 2 ^ (2 - 1))).testBit (2 - 1) = false ∧
    (GameCell.SuperState (511 &&& (511 - 2 ^ (2 - 1)))).constrain (GameCell.Fixed 2) =
      (GameCell.SuperState (511 &&& (511 - 2 ^ (2 - 1))), false) :=
  c6_constrain_clears_bit 2 511 (by decide) (by decide) (by decide)

/-- `enumFrom` as a map over `range`: index `k` pairs with the `k`-th element. -/
theorem enumFrom_eq_range_map {α : Type} (d : α) :
    ∀ (l : List α) (n : Nat),
      l.enumFrom n = (List.range l.length).map (fun k => (n + k, l.getD k d))
  | [], _ => rfl
  | a :: l, n => by
      show (n, a) :: l.enumFrom (n + 1) = _
      rw [List.length_cons, List.range_succ_eq_map, List.map_cons, List.map_map]
      rw [enumFrom_eq_range_map d l (n + 1)]
      refine congrArg₂ _ (by simp) ?_
      apply List.map_congr_left
      intro k _
      simp [Function.comp, Nat.succ_eq_add_one]
      omega

/-- C1 (amended): for every well-shaped grid, `all_cells` yields exactly 81
pairs, one per position in row-major order; the pair for array row `i`,
column `j` is labeled `Point { x := i, y := j }`, whose cell is read back by
`get` at the transposed point `Point { x := j, y := i }` (the iterator's
coordinates are swapped relative to `get`). -/
theorem c1_all_cells_amended (s : GameState) (h : WFShape s) :
    s.cellsSeq =
      ((List.range 9).map (fun i =>
        (List.range 9).map (fun j => (Point.mk i j, s.get (Point.mk j i))))).flatten ∧
    s.cellsSeq.length = 81 := by
  obtain ⟨hlen, hrows⟩ := h
  have hmain : s.cellsSeq =
      ((List.range 9).map (fun i =>
        (List.range 9).map (fun j => (Point.mk i j, s.get (Point.mk j i))))).flatten := by
    have henum : s.cells.enum = (List.range 9).map (fun k => (k, s.cells.getD k [])) := by
      have := enumFrom_eq_range_map ([] : List GameCell) s.cells 0
      simpa [hlen] using this
    show (s.cells.enum.map (fun ir =>
        ir.2.enum.map (fun jc => (Point.mk ir.1 jc.1, jc.2)))).flatten = _
    rw [henum, List.map_map]
    congr 1
    apply List.map_congr_left
    intro k hk
    have hk9 : k < s.cells.length := by rw [hlen]; exact List.mem_range.mp hk
    have hrlen : (s.cells.getD k []).length = 9 := by
      rw [List.getD_eq_getElem _ _ hk9]
      exact hrows _ (List.getElem_mem hk9)
    have hrenum : (s.cells.getD k []).enum =
        (List.range 9).map (fun j => (j, (s.cells.getD k []).getD j default)) := by
      have h0 := enumFrom_eq_range_map (default : GameCell) (s.cells.getD k []) 0
      rw [hrlen] at h0
      rw [show (s.cells.getD k []).enum = (s.cells.getD k []).enumFrom 0 from rfl, h0]
      apply List.map_congr_left
      intro j _
      simp
    show (s.cells.getD k []).enum.map (fun jc => (Point.mk k jc.1, jc.2)) = _
    rw [hrenum, List.map_map]
    apply List.map_congr_left
    intro j _
    rfl
  refine ⟨hmain, ?_⟩
  rw [hmain]
  simp only [List.length_flatten, List.map_map, Function.comp_def, List.length_map,
    List.length_range]
  decide

/-- Witness for C1 at the default grid. -/
theorem c1_all_cells_amended_witness :
    (default : GameState).cellsSeq =
      ((List.range 9).map (fun i =>
        (List.range 9).map (fun j =>
          (Point.mk i j, (default : GameState).get (Point.mk j i))))).flatten ∧
    (default : GameState).cellsSeq.length = 81 :=
  c1_all_cells_amended default (by decide)

/-- Filtering with a pointwise-weaker predicate keeps at most as many elements. -/
theorem length_filter_le_of {α : Type} (p q : α → Bool) :
    ∀ l : List α, (∀ x ∈ l, p x = true → q x = true) →
      (l.filter p).length ≤ (l.filter q).length
  | [], _ => Nat.le_refl _
  | a :: l, h => by
      have ih := length_filter_le_of p q l (fun x hx => h x (List.mem_cons_of_mem a hx))
      rcases hp : p a with _ | _ <;> rcases hq : q a with _ | _
      · simpa [List.filter_cons, hp, hq] using ih
      · simp [List.filter_cons, hp, hq]
        omega
      · exact absurd (h a (List.mem_cons_self a l) hp) (by simp [hq])
      · simp [List.filter_cons, hp, hq]
        omega

/-- Filtering with a strictly weaker predicate (some element satisfies `q`
but not `p`) keeps strictly fewer elements. -/
theorem length_filter_lt_of {α : Type} (p q : α → Bool) :
    ∀ l : List α, (∀ x ∈ l, p x = true → q x = true) →
      (∃ x ∈ l, q x = true ∧ p x = false) →
      (l.filter p).length < (l.filter q).length
  | [], _, hex => by simp at hex
  | a :: l, h, hex => by
      have himp := fun x hx => h x (List.mem_cons_of_mem a hx)
      rcases hex with ⟨x, hx, hqx, hpx⟩
      rcases List.mem_cons.mp hx with rfl | hxl
      · have hle := length_filter_le_of p q l himp
        simp [List.filter_cons, hqx, hpx]
        omega
      · have ih := length_filter_lt_of p q l himp ⟨x, hxl, hqx, hpx⟩
        rcases hp : p a with _ | _ <;> rcases hq : q a with _ | _
        · simpa [List.filter_cons, hp, hq] using ih
        · simp [List.filter_cons, hp, hq]
          omega
        · exact absurd (h a (List.mem_cons_self a l) hp) (by simp [hq])
        · simp [List.filter_cons, hp, hq]
          omega

/-- Masking a 16-bit value so that it actually changes strictly decreases
its popcount: masks only lose bits. -/
theorem count_ones_land_lt {m w : Nat} (hm : m < 65536) (hne : m &&& w ≠ m) :
    count_ones (m &&& w) < count_ones m := by
  apply length_filter_lt_of
  · intro i _ h
    rw [Nat.testBit_land, Bool.and_eq_true] at h
    exact h.1
  · by_contra hc
    push_neg at hc
    apply hne
    apply Nat.eq_of_testBit_eq
    intro i
    rw [Nat.testBit_land]
    by_cases hge : 16 ≤ i
    · have : m.testBit i = false := Nat.testBit_eq_false_of_lt
        (lt_of_lt_of_le hm (le_trans (by norm_num) (Nat.pow_le_pow_right (by norm_num) hge)))
      simp [this]
    · push_neg at hge
      rcases hmi : m.testBit i with _ | _
      · simp
      · have := hc i (List.mem_range.mpr hge) hmi
        rw [Nat.testBit_land, hmi, Bool.true_and] at this
        simp [this]

/-- Replacing one element of a list changes a mapped sum by exactly the
difference of the images. -/
theorem sum_map_set {α : Type} (f : α → Nat) (d a : α) :
    ∀ (l : List α) (n : Nat), n < l.length →
      ((l.set n a).map f).sum + f (l.getD n d) = (l.map f).sum + f a
  | [], n, h => by simp at h
  | x :: l, 0, _ => by simp [List.set]; omega
  | x :: l, n + 1, h => by
      have ih := sum_map_set f d a l n (by simpa using Nat.lt_of_succ_lt_succ h)
      simp only [List.set, List.map_cons, List.sum_cons, List.getD_cons_succ]
      omega

/-- A mapped sum over elements bounded by `b` is at most `b * length`. -/
theorem sum_map_le {α : Type} (f : α → Nat) (b : Nat) :
    ∀ l : List α, (∀ x ∈ l, f x ≤ b) → (l.map f).sum ≤ b * l.length
  | [], _ => by simp
  | x :: l, h => by
      have ih := sum_map_le f b l (fun y hy => h y (List.mem_cons_of_mem x hy))
      have hx := h x (List.mem_cons_self x l)
      simp only [List.map_cons, List.sum_cons, List.length_cons]
      calc f x + (l.map f).sum ≤ b + b * l.length := Nat.add_le_add hx ih
        _ = b * (l.length + 1) := by ring

/-- Every unset pattern is a 9-bit value. -/
theorem unset_bit_pattern_le (v : Nat) : GameCell.unset_bit_pattern v ≤ 511 := by
  unfold GameCell.unset_bit_pattern
  split <;> omega

/-- House coordinates are always 0, 1 or 2. -/
theorem point_to_house_coord_le (x : Nat) : GameState.point_to_house_coord x ≤ 2 := by
  unfold GameState.point_to_house_coord
  split_ifs <;> omega

/-- Points of a row group. -/
theorem mem_in_row {p : Point} {r : Nat} (h : p ∈ GameState.in_row r) :
    p.x < 9 ∧ p.y = r := by
  rcases List.mem_map.mp h with ⟨i, hi, rfl⟩
  exact ⟨List.mem_range.mp hi, rfl⟩

/-- Points of a column group. -/
theorem mem_in_col {p : Point} {c : Nat} (h : p ∈ GameState.in_col c) :
    p.x = c ∧ p.y < 9 := by
  rcases List.mem_map.mp h with ⟨i, hi, rfl⟩
  exact ⟨rfl, List.mem_range.mp hi⟩

/-- Points of a house group stay inside the 9×9 grid. -/
theorem mem_in_house {p q : Point} (h : p ∈ GameState.in_house q) :
    p.x < 9 ∧ p.y < 9 := by
  simp only [GameState.in_house, List.mem_flatten, List.mem_map] at h
  obtain ⟨l, ⟨i, hi, rfl⟩, hpl⟩ := h
  rcases List.mem_map.mp hpl with ⟨j, hj, rfl⟩
  have h1 := point_to_house_coord_le q.x
  have h2 := point_to_house_coord_le q.y
  have hi' := List.mem_range.mp hi
  have hj' := List.mem_range.mp hj
  constructor <;> simp <;> omega

/-- Worklist entries generated from an in-range point are in range. -/
theorem mem_affected_cells {p q : Point} (h : p ∈ affected_cells q)
    (hx : q.x < 9) (hy : q.y < 9) : p.x < 9 ∧ p.y < 9 := by
  unfold affected_cells at h
  rcases List.mem_append.mp h with h' | h'
  · rcases List.mem_append.mp h' with h'' | h''
    · have := mem_in_col h''
      omega
    · have := mem_in_row h''
      omega
  · exact mem_in_house h'

/-- The initial worklist always holds 27 points. -/
theorem length_affected_cells (q : Point) : (affected_cells q).length = 27 := by
  simp [affected_cells, GameState.in_row, GameState.in_col, GameState.in_house,
    List.length_flatten, List.map_map, Function.comp_def]

/-- Reading an in-range cell of a well-formed state gives a 9-bit mask. -/
theorem cellMaskOk_get {s : GameState} {q : Point} (h : WFState s)
    (hx : q.x < 9) (hy : q.y < 9) : cellMaskOk (s.get q) := by
  obtain ⟨hlen, hrows⟩ := h
  have hy' : q.y < s.cells.length := by omega
  have hrow : s.cells.getD q.y [] ∈ s.cells := by
    rw [List.getD_eq_getElem _ _ hy']
    exact List.getElem_mem hy'
  obtain ⟨hrlen, hcells⟩ := hrows _ hrow
  have hx' : q.x < (s.cells.getD q.y []).length := by omega
  show cellMaskOk ((s.cells.getD q.y []).getD q.x default)
  rw [List.getD_eq_getElem _ _ hx']
  exact hcells _ (List.getElem_mem hx')

/-- Writing a 9-bit cell at an in-range point preserves well-formedness. -/
theorem WFState_set {s : GameState} {q : Point} {c : GameCell} (h : WFState s)
    (hc : cellMaskOk c) (_hx : q.x < 9) (hy : q.y < 9) : WFState (s.set q c) := by
  obtain ⟨hlen, hrows⟩ := h
  have hy' : q.y < s.cells.length := by omega
  have hrowmem : s.cells.getD q.y [] ∈ s.cells := by
    rw [List.getD_eq_getElem _ _ hy']
    exact List.getElem_mem hy'
  obtain ⟨hrlen, hcells⟩ := hrows _ hrowmem
  refine ⟨by simpa [GameState.set] using hlen, ?_⟩
  intro r hr
  rcases List.mem_or_eq_of_mem_set hr with hr' | rfl
  · exact hrows r hr'
  · refine ⟨by rw [List.length_set]; exact hrlen, ?_⟩
    intro c' hc'
    rcases List.mem_or_eq_of_mem_set hc' with hc'' | rfl
    · exact hcells c' hc''
    · exact hc

/-- Writing one cell moves the candidate-bit total by exactly the
difference between old and new cell. -/
theorem gridBits_set {s : GameState} {q : Point} (c : GameCell)
    (hlen : s.cells.length = 9) (hrows : ∀ r ∈ s.cells, r.length = 9)
    (hx : q.x < 9) (hy : q.y < 9) :
    gridBits (s.set q c) + cellBits (s.get q) = gridBits s + cellBits c := by
  have hy' : q.y < s.cells.length := by omega
  have hrowmem : s.cells.getD q.y [] ∈ s.cells := by
    rw [List.getD_eq_getElem _ _ hy']
    exact List.getElem_mem hy'
  have hrlen : (s.cells.getD q.y []).length = 9 := hrows _ hrowmem
  have hx' : q.x < (s.cells.getD q.y []).length := by omega
  have hinner := sum_map_set cellBits default c (s.cells.getD q.y []) q.x hx'
  have houter := sum_map_set (fun r => (r.map cellBits).sum) []
    ((s.cells.getD q.y []).set q.x c) s.cells q.y hy'
  dsimp only at houter
  show ((s.cells.set q.y ((s.cells.getD q.y []).set q.x c)).map
      (fun r => (r.map cellBits).sum)).sum +
      cellBits ((s.cells.getD q.y []).getD q.x default) =
    (s.cells.map (fun r => (r.map cellBits).sum)).sum + cellBits c
  omega

/-- `GameCell::constrain` against a fixed source either leaves the cell
untouched and reports `false`, or strictly shrinks a `SuperState` mask and
reports `true`. -/
theorem cell_constrain_cases (c : GameCell) (v : Nat) :
    c.constrain (GameCell.Fixed v) = (c, false) ∨
    (∃ m, c = GameCell.SuperState m ∧
      c.constrain (GameCell.Fixed v) =
        (GameCell.SuperState (m &&& GameCell.unset_bit_pattern v), true) ∧
      m &&& GameCell.unset_bit_pattern v ≠ m) := by
  cases c with
  | Fixed w => exact Or.inl rfl
  | SuperState m =>
      by_cases h : m &&& GameCell.unset_bit_pattern v = m
      · left
        show (GameCell.SuperState (m &&& GameCell.unset_bit_pattern v),
            decide (m ≠ m &&& GameCell.unset_bit_pattern v)) = _
        rw [h]
        simp
      · right
        refine ⟨m, rfl, ?_, h⟩
        show (GameCell.SuperState (m &&& GameCell.unset_bit_pattern v),
            decide (m ≠ m &&& GameCell.unset_bit_pattern v)) = _
        have hne : m ≠ m &&& GameCell.unset_bit_pattern v := fun hc => h hc.symm
        simp [hne]

/-- The propagation worklist drains whenever the fuel exceeds
`28 * gridBits + queue length`: each iteration either shortens the queue or
strictly removes a candidate bit while adding 27 queue entries. -/
theorem constrainLoop_drains :
    ∀ fuel : Nat, ∀ (s : GameState) (queue : List Point) (v : Nat),
      1 ≤ v → v ≤ 9 → WFState s →
      (∀ p ∈ queue, p.x < 9 ∧ p.y < 9) →
      28 * gridBits s + queue.length < fuel →
      ∃ s', constrainLoop fuel s (GameCell.Fixed v) queue = some s' := by
  intro fuel
  induction fuel with
  | zero =>
      intro s queue v _ _ _ _ hlt
      omega
  | succ fuel ih =>
      intro s queue v h1 h9 hwf hq hlt
      rcases queue with _ | ⟨q, rest⟩
      · exact ⟨s, rfl⟩
      · obtain ⟨hqx, hqy⟩ := hq q (List.mem_cons_self q rest)
        have hrest : ∀ p ∈ rest, p.x < 9 ∧ p.y < 9 :=
          fun p hp => hq p (List.mem_cons_of_mem q hp)
        have hunf : constrainLoop (fuel + 1) s (GameCell.Fixed v) (q :: rest) =
            (if ((s.get q).constrain (GameCell.Fixed v)).2
             then constrainLoop fuel (s.set q ((s.get q).constrain (GameCell.Fixed v)).1)
                    (GameCell.Fixed v) ((affected_cells q).reverse ++ rest)
             else constrainLoop fuel (s.set q ((s.get q).constrain (GameCell.Fixed v)).1)
                    (GameCell.Fixed v) rest) := rfl
        rcases cell_constrain_cases (s.get q) v with hcase | ⟨m, hmq, hcase, hne⟩
        · rw [hunf, hcase]
          simp only [Bool.false_eq_true, if_false]
          have hbits := gridBits_set (s.get q) hwf.1 (fun r hr => (hwf.2 r hr).1) hqx hqy
          apply ih (s.set q (s.get q)) rest v h1 h9
          · exact WFState_set hwf (cellMaskOk_get hwf hqx hqy) hqx hqy
          · exact hrest
          · simp only [List.length_cons] at hlt
            omega
        · rw [hunf, hcase]
          simp only [if_true]
          have hbits := gridBits_set (GameCell.SuperState (m &&& GameCell.unset_bit_pattern v))
            hwf.1 (fun r hr => (hwf.2 r hr).1) hqx hqy
          rw [hmq] at hbits
          have hmask : cellMaskOk (s.get q) := cellMaskOk_get hwf hqx hqy
          rw [hmq] at hmask
          have hm512 : m < 512 := hmask
          have hdrop : count_ones (m &&& GameCell.unset_bit_pattern v) < count_ones m :=
            count_ones_land_lt (by omega) hne
          have hcb1 : cellBits (GameCell.SuperState m) = count_ones m := rfl
          have hcb2 : cellBits (GameCell.SuperState (m &&& GameCell.unset_bit_pattern v)) =
              count_ones (m &&& GameCell.unset_bit_pattern v) := rfl
          rw [hcb1, hcb2] at hbits
          apply ih _ _ v h1 h9
          · apply WFState_set hwf _ hqx hqy
            show m &&& GameCell.unset_bit_pattern v < 512
            have := unset_bit_pattern_le v
            have := Nat.and_le_right (n := m) (m := GameCell.unset_bit_pattern v)
            omega
          · intro p hp
            rcases List.mem_append.mp hp with hp' | hp'
            · exact mem_affected_cells (List.mem_reverse.mp hp') hqx hqy
            · exact hrest p hp'
          · rw [List.length_append, List.length_reverse, length_affected_cells]
            simp only [List.length_cons] at hlt
            omega

/-- C8: from any well-formed grid state and any in-range starting point
holding a `Fixed` value in `1..9`, the propagation worklist loop
terminates — the fuel `28 * gridBits + 28` always suffices, and the total
number of removable candidate bits is at most 81 × 9 = 729. -/
theorem c8_propagation_terminates (s : GameState) (source : Point) (v : Nat)
    (hwf : WFState s) (hx : source.x < 9) (hy : source.y < 9)
    (hsrc : s.get source = GameCell.Fixed v) (h1 : 1 ≤ v) (h9 : v ≤ 9) :
    (constrain s source).isSome = true ∧ gridBits s ≤ 729 := by
  constructor
  · obtain ⟨s', hs'⟩ := constrainLoop_drains (28 * gridBits s + 28) s
      ((affected_cells source).reverse) v h1 h9 hwf
      (fun p hp => mem_affected_cells (List.mem_reverse.mp hp) hx hy)
      (by rw [List.length_reverse, length_affected_cells]; omega)
    unfold constrain
    rw [hsrc]
    show (constrainLoop (28 * gridBits s + 28) s (GameCell.Fixed v)
      (affected_cells source).reverse).isSome = true
    rw [hs']
    rfl
  · obtain ⟨hlen, hrows⟩ := hwf
    have hcell : ∀ m, m < 512 → count_ones m ≤ 9 := by decide
    have hrowsum : ∀ r ∈ s.cells, (r.map cellBits).sum ≤ 81 := by
      intro r hr
      obtain ⟨hrlen, hmask⟩ := hrows r hr
      have hb : ∀ c ∈ r, cellBits c ≤ 9 := by
        intro c hc
        cases c with
        | SuperState m => exact hcell m (hmask _ hc)
        | Fixed w => exact Nat.zero_le _
      have := sum_map_le cellBits 9 r hb
      rw [hrlen] at this
      omega
    have := sum_map_le (fun r => (r.map cellBits).sum) 81 s.cells hrowsum
    rw [hlen] at this
    show (s.cells.map (fun r => (r.map cellBits).sum)).sum ≤ 729
    omega

/-- Witness for C8 at the parsed example puzzle, propagating from the clue
`Fixed 9` at the top-left corner. -/
theorem c8_propagation_terminates_witness :
    (constrain exampleGrid (Point.mk 0 0)).isSome = true ∧
    gridBits exampleGrid ≤ 729 :=
  c8_propagation_terminates exampleGrid (Point.mk 0 0) 9 (by decide) (by decide)
    (by decide) (by decide) (by decide) (by decide)

/-- The cell produced by one accepted character of `parse`. -/
def cellOfChar (c : Char) : GameCell :=
  match charToDigit10 c with
  | some value => GameCell.Fixed value
  | none => default

/-- The character set the parser code actually accepts: ASCII digits 0-9
(code points 48..57) or `'.'`. -/
def validChar0 (c : Char) : Prop :=
  ('0' ≤ c ∧ c ≤ '9') ∨ c = '.'

instance : DecidablePred validChar0 := fun c => by
  unfold validChar0; infer_instance

/-- The character set of the specification's input contract: digits 1-9 or `'.'`. -/
def specValidChar (c : Char) : Prop :=
  ('1' ≤ c ∧ c ≤ '9') ∨ c = '.'

instance : DecidablePred specValidChar := fun c => by
  unfold specValidChar; infer_instance

/-- The well-formedness condition under which the parser succeeds. -/
def wellFormedInput (text : List Char) : Prop :=
  (rustLines text).length = 9 ∧
  ∀ l ∈ rustLines text, l.length = 9 ∧ ∀ c ∈ l, validChar0 c

instance : DecidablePred wellFormedInput := fun text => by
  unfold wellFormedInput; infer_instance

/-- An accepted character parses to its cell. -/
theorem parseCell_ok_of {c : Char} (h : validChar0 c) :
    parseCell c = .ok (cellOfChar c) := by
  unfold parseCell cellOfChar
  rcases hd : charToDigit10 c with _ | v
  · rcases h with hd9 | rfl
    · unfold charToDigit10 at hd
      rw [if_pos hd9] at hd
      cases hd
    · rfl
  · rfl

/-- A rejected character parses to the invalid-character error. -/
theorem parseCell_err_of {c : Char} (h : ¬ validChar0 c) :
    parseCell c = .error "Invalid character input" := by
  unfold parseCell charToDigit10
  rw [if_neg (fun hc => h (Or.inl hc))]
  show (if c = '.' then Except.ok (default : GameCell)
      else Except.error "Invalid character input") = _
  rw [if_neg (fun hdot => h (Or.inr hdot))]

/-- A fully valid line parses to its cells. -/
theorem parseRow_ok_of :
    ∀ l : List Char, (∀ c ∈ l, validChar0 c) →
      parseRow l = .ok (l.map cellOfChar)
  | [], _ => rfl
  | c :: cs, h => by
      have hc := h c (List.mem_cons_self c cs)
      have ih := parseRow_ok_of cs (fun x hx => h x (List.mem_cons_of_mem c hx))
      unfold parseRow
      rw [parseCell_ok_of hc, ih]
      rfl

/-- A line with an invalid character parses to the invalid-character error. -/
theorem parseRow_err_of :
    ∀ l : List Char, (¬ ∀ c ∈ l, validChar0 c) →
      parseRow l = .error "Invalid character input"
  | [], h => absurd (by simp) h
  | c :: cs, h => by
      unfold parseRow
      by_cases hc : validChar0 c
      · have hcs : ¬ ∀ x ∈ cs, validChar0 x := by
          intro hall
          exact h (fun x hx => by
            rcases List.mem_cons.mp hx with rfl | hx'
            · exact hc
            · exact hall x hx')
        rw [parseCell_ok_of hc, parseRow_err_of cs hcs]
      · rw [parseCell_err_of hc]

/-- Valid characters are ASCII, hence one byte each. -/
theorem charUtf8Size_valid {c : Char} (h : validChar0 c) : charUtf8Size c = 1 := by
  rcases h with ⟨h1, h2⟩ | rfl
  · have hc : c.toNat ≤ 57 := Char.le_def.mp h2
    unfold charUtf8Size
    rw [if_pos (by omega)]
  · decide

/-- On all-valid lines, byte length and character count agree. -/
theorem utf8Len_eq_length :
    ∀ l : List Char, (∀ c ∈ l, validChar0 c) → utf8Len l = l.length
  | [], _ => rfl
  | c :: cs, h => by
      have hc := charUtf8Size_valid (h c (List.mem_cons_self c cs))
      have ih := utf8Len_eq_length cs (fun x hx => h x (List.mem_cons_of_mem c hx))
      unfold utf8Len at ih ⊢
      simp only [List.map_cons, List.sum_cons, List.length_cons, hc, ih]
      omega

/-- All lines valid: the parser produces all rows. -/
theorem parseRows_ok_of :
    ∀ ls : List (List Char),
      (∀ l ∈ ls, utf8Len l = 9 ∧ ∀ c ∈ l, validChar0 c) →
      parseRows ls = .ok (ls.map (List.map cellOfChar))
  | [], _ => rfl
  | l :: ls, h => by
      obtain ⟨hlen, hval⟩ := h l (List.mem_cons_self l ls)
      have ih := parseRows_ok_of ls (fun x hx => h x (List.mem_cons_of_mem l hx))
      unfold parseRows parseLine
      rw [if_neg (by omega), parseRow_ok_of l hval, ih]
      rfl

/-- Any error the per-row parser reports is the invalid-character error. -/
theorem parseRow_error_msg :
    ∀ (l : List Char) (e : String), parseRow l = .error e →
      e = "Invalid character input"
  | [], e, h => by cases h
  | c :: cs, e, h => by
      unfold parseRow at h
      rcases hc : parseCell c with e' | g
      · rw [hc] at h
        cases h
        unfold parseCell at hc
        rcases hd : charToDigit10 c with _ | v
        · rw [hd] at hc
          by_cases hdot : c = '.'
          · rw [if_pos hdot] at hc; cases hc
          · rw [if_neg hdot] at hc
            cases hc
            rfl
        · rw [hd] at hc; cases hc
      · rw [hc] at h
        rcases hr : parseRow cs with f | gs
        · rw [hr] at h
          cases h
          exact parseRow_error_msg cs _ hr
        · rw [hr] at h
          cases h

/-- Successful row parsing implies every line had byte length 9 and only
accepted characters. -/
theorem parseRows_ok_imp :
    ∀ (ls : List (List Char)) (rows : List (List GameCell)),
      parseRows ls = .ok rows →
      ∀ l ∈ ls, utf8Len l = 9 ∧ ∀ c ∈ l, validChar0 c
  | [], _, _ => by simp
  | l :: ls, rows, h => by
      unfold parseRows parseLine at h
      by_cases hlen : utf8Len l = 9
      · rw [if_neg (fun hc => hc hlen)] at h
        by_cases hval : ∀ c ∈ l, validChar0 c
        · rw [parseRow_ok_of l hval] at h
          rcases hr : parseRows ls with e | rs
          · rw [hr] at h; cases h
          · rw [hr] at h
            intro l' hl'
            rcases List.mem_cons.mp hl' with rfl | hl''
            · exact ⟨hlen, hval⟩
            · exact parseRows_ok_imp ls rs hr l' hl''
        · rw [parseRow_err_of l hval] at h; cases h
      · rw [if_pos hlen] at h; cases h

/-- Any error reported by the row parser is one of the two line-level
messages — never the line-count message. -/
theorem parseRows_error_msgs :
    ∀ (ls : List (List Char)) (e : String), parseRows ls = .error e →
      e = "Incorrect line length" ∨ e = "Invalid character input"
  | [], _, h => by cases h
  | l :: ls, e, h => by
      unfold parseRows parseLine at h
      by_cases hlen : utf8Len l = 9
      · rw [if_neg (fun hc => hc hlen)] at h
        rcases hrow : parseRow l with e' | r
        · rw [hrow] at h
          cases h
          exact Or.inr (parseRow_error_msg l _ hrow)
        · rw [hrow] at h
          rcases hr : parseRows ls with e' | rs
          · rw [hr] at h
            cases h
            exact parseRows_error_msgs ls _ hr
          · rw [hr] at h; cases h
      · rw [if_pos hlen] at h
        cases h
        exact Or.inl rfl

/-- A line-length error pins down an offending line. -/
theorem parseRows_error_len :
    ∀ ls : List (List Char), parseRows ls = .error "Incorrect line length" →
      ∃ l ∈ ls, utf8Len l ≠ 9
  | [], h => by cases h
  | l :: ls, h => by
      unfold parseRows parseLine at h
      by_cases hlen : utf8Len l = 9
      · rw [if_neg (fun hc => hc hlen)] at h
        rcases hrow : parseRow l with e' | r
        · rw [hrow] at h
          cases h
          exact absurd (parseRow_error_msg l _ hrow) (by decide)
        · rw [hrow] at h
          rcases hr : parseRows ls with e' | rs
          · rw [hr] at h
            cases h
            obtain ⟨l', hl', hne⟩ := parseRows_error_len ls hr
            exact ⟨l', List.mem_cons_of_mem l hl', hne⟩
          · rw [hr] at h; cases h
      · exact ⟨l, List.mem_cons_self l ls, hlen⟩

/-- An invalid-character error pins down an offending character. -/
theorem parseRows_error_char :
    ∀ ls : List (List Char), parseRows ls = .error "Invalid character input" →
      ∃ l ∈ ls, ∃ c ∈ l, ¬ validChar0 c
  | [], h => by cases h
  | l :: ls, h => by
      unfold parseRows parseLine at h
      by_cases hlen : utf8Len l = 9
      · rw [if_neg (fun hc => hc hlen)] at h
        by_cases hval : ∀ c ∈ l, validChar0 c
        · rw [parseRow_ok_of l hval] at h
          rcases hr : parseRows ls with e' | rs
          · rw [hr] at h
            cases h
            obtain ⟨l', hl', hc⟩ := parseRows_error_char ls hr
            exact ⟨l', List.mem_cons_of_mem l hl', hc⟩
          · rw [hr] at h; cases h
        · push_neg at hval
          obtain ⟨c, hc, hnv⟩ := hval
          exact ⟨l, List.mem_cons_self l ls, c, hc, hnv⟩
      · rw [if_pos hlen] at h
        injection h with h'
        exact absurd h' (by decide)

/-- C4 (amended): `parse` succeeds exactly on inputs of 9 lines × 9
characters drawn from digits 0-9 (the code also accepts `'0'`, storing
`Fixed 0`) and `'.'`; on success every digit becomes `Fixed` of its value
and `'.'` the full-mask `SuperState`; the three malformed shapes each fail
fast with their distinguishing message, producing no grid at all. -/
theorem c4_parse_amended (text : List Char) :
    ((parse text).isOk = true ↔ wellFormedInput text) ∧
    (wellFormedInput text →
      parse text = .ok ⟨(rustLines text).map (List.map cellOfChar)⟩) ∧
    (parse text = .error "Incorrect input number of lines" ↔
      (rustLines text).length ≠ 9) ∧
    (parse text = .error "Incorrect line length" →
      ∃ l ∈ rustLines text, utf8Len l ≠ 9) ∧
    (parse text = .error "Invalid character input" →
      ∃ l ∈ rustLines text, ∃ c ∈ l, ¬ validChar0 c) := by
  by_cases hcount : (rustLines text).length = 9
  · have hparse : parse text =
        (parseRows (rustLines text)).map (fun rows => (⟨rows⟩ : GameState)) := by
      unfold parse
      rw [if_neg (fun hc => hc hcount)]
    have h2 : wellFormedInput text →
        parse text = .ok ⟨(rustLines text).map (List.map cellOfChar)⟩ := by
      intro hwf
      have hval9 : ∀ l ∈ rustLines text, utf8Len l = 9 ∧ ∀ c ∈ l, validChar0 c := by
        intro l hl
        obtain ⟨hlen9, hv⟩ := hwf.2 l hl
        exact ⟨by rw [utf8Len_eq_length l hv]; exact hlen9, hv⟩
      rw [hparse, parseRows_ok_of _ hval9]
      rfl
    refine ⟨⟨?_, fun hwf => by rw [h2 hwf]; rfl⟩, h2, ⟨?_, ?_⟩, ?_, ?_⟩
    · intro hok
      rw [hparse] at hok
      rcases hr : parseRows (rustLines text) with e | rows
      · rw [hr] at hok
        simp [Except.map, Except.isOk, Except.toBool] at hok
      · have hall := parseRows_ok_imp _ rows hr
        refine ⟨hcount, fun l hl => ?_⟩
        obtain ⟨hlen, hval⟩ := hall l hl
        exact ⟨by rw [← utf8Len_eq_length l hval]; exact hlen, hval⟩
    · intro h
      rw [hparse] at h
      rcases hr : parseRows (rustLines text) with e | rows
      · rw [hr] at h
        simp only [Except.map] at h
        cases h
        rcases parseRows_error_msgs _ _ hr with h' | h' <;> exact absurd h' (by decide)
      · rw [hr] at h
        simp [Except.map] at h
    · intro h
      exact absurd hcount h
    · intro h
      rw [hparse] at h
      rcases hr : parseRows (rustLines text) with e | rows
      · rw [hr] at h
        simp only [Except.map] at h
        cases h
        exact parseRows_error_len _ hr
      · rw [hr] at h
        simp [Except.map] at h
    · intro h
      rw [hparse] at h
      rcases hr : parseRows (rustLines text) with e | rows
      · rw [hr] at h
        simp only [Except.map] at h
        cases h
        exact parseRows_error_char _ hr
      · rw [hr] at h
        simp [Except.map] at h
  · have hparse : parse text = .error "Incorrect input number of lines" := by
      unfold parse
      rw [if_pos hcount]
    refine ⟨⟨?_, ?_⟩, ?_, ⟨fun _ => hcount, fun _ => hparse⟩, ?_, ?_⟩
    · intro hok
      rw [hparse] at hok
      simp [Except.isOk, Except.toBool] at hok
    · intro hwf
      exact absurd hwf.1 hcount
    · intro hwf
      exact absurd hwf.1 hcount
    · intro h
      rw [hparse] at h
      injection h with h'
      exact absurd h' (by decide)
    · intro h
      rw [hparse] at h
      injection h with h'
      exact absurd h' (by decide)

/-- Witness for C4 at the example puzzle. -/
theorem c4_parse_amended_witness :
    ((parse examplePuzzle).isOk = true ↔ wellFormedInput examplePuzzle) ∧
    (wellFormedInput examplePuzzle →
      parse examplePuzzle = .ok ⟨(rustLines examplePuzzle).map (List.map cellOfChar)⟩) ∧
    (parse examplePuzzle = .error "Incorrect input number of lines" ↔
      (rustLines examplePuzzle).length ≠ 9) ∧
    (parse examplePuzzle = .error "Incorrect line length" →
      ∃ l ∈ rustLines examplePuzzle, utf8Len l ≠ 9) ∧
    (parse examplePuzzle = .error "Invalid character input" →
      ∃ l ∈ rustLines examplePuzzle, ∃ c ∈ l, ¬ validChar0 c) :=
  c4_parse_amended examplePuzzle

/-- Nine lines of `'0'` characters: outside the specification's 1-9/dot
contract, yet accepted by the parser. -/
def zeroCharGrid : List Char :=
  ("000000000\n000000000\n000000000\n000000000\n000000000\n" ++
   "000000000\n000000000\n000000000\n000000000").toList

/-- C4 counterexample: the parser accepts an input whose characters are not
all in `{'1'..'9', '.'}` — nine lines of `'0'` parse successfully (to
`Fixed 0` cells), refuting the claimed "exactly when". -/
theorem c4_counterexample :
    (parse zeroCharGrid).isOk = true ∧
    ¬ (∀ l ∈ rustLines zeroCharGrid, ∀ c ∈ l, specValidChar c) ∧
    (rustLines zeroCharGrid).length = 9 ∧
    (∀ l ∈ rustLines zeroCharGrid, l.length = 9) := by
  refine ⟨by decide, by decide, by decide, by decide⟩

/-- Join lines with `'\n'` separators and no trailing newline: the shape of
a grid string meeting the input contract. -/
def joinNl : List (List Char) → List Char
  | [] => []
  | [l] => l
  | l :: ls => l ++ '\n' :: joinNl ls

/-- A line without separators splits to itself. -/
theorem linesCore_no_sep :
    ∀ l : List Char, (∀ c ∈ l, c ≠ '\n' ∧ c ≠ '\r') → linesCore l = [l]
  | [], _ => rfl
  | [c], h => by
      have hc := h c (by simp)
      show (if c = '\n' then [[], []] else [[c]]) = [[c]]
      rw [if_neg hc.1]
  | c :: c2 :: rest, h => by
      have hc := h c (by simp)
      have ih := linesCore_no_sep (c2 :: rest) (fun x hx => h x (List.mem_cons_of_mem c hx))
      show (if c = '\n' then [] :: linesCore (c2 :: rest)
        else if c = '\r' ∧ c2 = '\n' then [] :: linesCore rest
        else consHeadAux c (linesCore (c2 :: rest))) = [c :: c2 :: rest]
      rw [if_neg hc.1, if_neg (fun hand => hc.2 hand.1), ih]
      rfl

/-- Splitting a clean line followed by a newline peels off that line. -/
theorem linesCore_append :
    ∀ (l t : List Char), (∀ c ∈ l, c ≠ '\n' ∧ c ≠ '\r') →
      linesCore (l ++ '\n' :: t) = l :: linesCore t
  | [], t, _ => by
      rcases t with _ | ⟨d, t'⟩
      · rfl
      · show (if '\n' = '\n' then [] :: linesCore (d :: t')
          else if '\n' = '\r' ∧ d = '\n' then [] :: linesCore t'
          else consHeadAux '\n' (linesCore (d :: t'))) = [] :: linesCore (d :: t')
        rw [if_pos rfl]
  | c :: l', t, h => by
      have hc := h c (by simp)
      have ih := linesCore_append l' t (fun x hx => h x (List.mem_cons_of_mem c hx))
      rcases l' with _ | ⟨d, l''⟩
      · show (if c = '\n' then [] :: linesCore ('\n' :: t)
          else if c = '\r' ∧ '\n' = '\n' then [] :: linesCore t
          else consHeadAux c (linesCore ('\n' :: t))) = [c] :: linesCore t
        rw [if_neg hc.1, if_neg (fun hand => hc.2 hand.1)]
        have h0 : linesCore ('\n' :: t) = [] :: linesCore t := linesCore_append [] t (by simp)
        rw [h0]
        rfl
      · simp only [List.cons_append] at ih
        show (if c = '\n' then [] :: linesCore (d :: (l'' ++ '\n' :: t))
          else if c = '\r' ∧ d = '\n' then [] :: linesCore (l'' ++ '\n' :: t)
          else consHeadAux c (linesCore (d :: (l'' ++ '\n' :: t)))) =
          (c :: d :: l'') :: linesCore t
        rw [if_neg hc.1, if_neg (fun hand => hc.2 hand.1), ih]
        rfl

/-- Splitting the newline-join of clean nonempty lines recovers the lines. -/
theorem linesCore_joinNl :
    ∀ ls : List (List Char), ls ≠ [] →
      (∀ l ∈ ls, ∀ c ∈ l, c ≠ '\n' ∧ c ≠ '\r') →
      linesCore (joinNl ls) = ls
  | [], h, _ => absurd rfl h
  | [l], _, hv => linesCore_no_sep l (hv l (by simp))
  | l :: l2 :: ls, _, hv => by
      show linesCore (l ++ '\n' :: joinNl (l2 :: ls)) = l :: (l2 :: ls)
      rw [linesCore_append l _ (hv l (by simp)),
        linesCore_joinNl (l2 :: ls) (by simp)
          (fun x hx => hv x (List.mem_cons_of_mem l hx))]

/-- `str::lines` of the newline-join of the contract's nine lines. -/
theorem rustLines_joinNl (ls : List (List Char)) (hlen : ls.length = 9)
    (hne : ∀ l ∈ ls, l ≠ [])
    (hv : ∀ l ∈ ls, ∀ c ∈ l, c ≠ '\n' ∧ c ≠ '\r') :
    rustLines (joinNl ls) = ls := by
  have hne' : ls ≠ [] := by
    intro h
    rw [h] at hlen
    cases hlen
  show (if (linesCore (joinNl ls)).getLast? = some [] then (linesCore (joinNl ls)).dropLast
    else linesCore (joinNl ls)) = ls
  rw [linesCore_joinNl ls hne' hv]
  rw [if_neg ?hlast]
  case hlast =>
    rw [List.getLast?_eq_getLast ls hne']
    intro hc
    injection hc with hc'
    exact hne _ (List.getLast_mem hne') hc'

/-- The specification's character set is inside the parser's. -/
theorem specValid_valid {c : Char} (h : specValidChar c) : validChar0 c := by
  rcases h with ⟨h1, h2⟩ | rfl
  · exact Or.inl ⟨le_trans (by decide) h1, h2⟩
  · exact Or.inr rfl

/-- The specification's characters are never line separators. -/
theorem specValid_no_sep {c : Char} (h : specValidChar c) : c ≠ '\n' ∧ c ≠ '\r' := by
  rcases h with ⟨h1, h2⟩ | rfl
  · have h49 : (49 : Nat) ≤ c.toNat := Char.le_def.mp h1
    constructor <;> intro hc <;> subst hc <;> exact absurd h49 (by decide)
  · exact ⟨by decide, by decide⟩

/-- Rendering the cell parsed from a contract character prints it back. -/
theorem cellChars_cellOfChar {c : Char} (h : specValidChar c) :
    cellChars (cellOfChar c) = [c] := by
  rcases h with ⟨h1, h2⟩ | rfl
  · have h49 : (49 : Nat) ≤ c.toNat := Char.le_def.mp h1
    have h57 : c.toNat ≤ 57 := Char.le_def.mp h2
    have hc0 : '0' ≤ c := Char.le_def.mpr (show (48 : Nat) ≤ c.toNat by omega)
    have hdig : charToDigit10 c = some (c.toNat - 48) := by
      unfold charToDigit10
      rw [if_pos ⟨hc0, h2⟩]
      rfl
    have hcell : cellOfChar c = GameCell.Fixed (c.toNat - 48) := by
      unfold cellOfChar
      rw [hdig]
    rw [hcell]
    show natChars (c.toNat - 48) = [c]
    rw [← Char.ofNat_toNat c]
    generalize hn : c.toNat = n
    rw [hn] at h49 h57
    unfold natChars
    interval_cases n <;> decide
  · rfl

/-- Rendering the cells parsed from one contract line prints the line. -/
theorem render_row :
    ∀ l : List Char, (∀ c ∈ l, specValidChar c) →
      ((l.map cellOfChar).map cellChars).flatten = l
  | [], _ => rfl
  | c :: cs, h => by
      have hc := h c (by simp)
      have ih := render_row cs (fun x hx => h x (List.mem_cons_of_mem c hx))
      simp only [List.map_cons, List.flatten_cons]
      rw [cellChars_cellOfChar hc, ih]
      rfl

/-- `Display for GameState` on the parsed rows of contract lines. -/
theorem render_rows :
    ∀ ls : List (List Char), (∀ l ∈ ls, ∀ c ∈ l, specValidChar c) →
      render ⟨ls.map (List.map cellOfChar)⟩ =
        (ls.map (fun l => l ++ ['\n'])).flatten := by
  intro ls h
  show ((ls.map (List.map cellOfChar)).map
    (fun line => (line.map cellChars).flatten ++ ['\n'])).flatten = _
  rw [List.map_map]
  congr 1
  apply List.map_congr_left
  intro l hl
  show ((l.map cellOfChar).map cellChars).flatten ++ ['\n'] = l ++ ['\n']
  rw [render_row l (h l hl)]

/-- Appending a newline to each line and flattening is the join plus a
final newline. -/
theorem flatten_map_newline :
    ∀ ls : List (List Char), ls ≠ [] →
      (ls.map (fun l => l ++ ['\n'])).flatten = joinNl ls ++ ['\n']
  | [], h => absurd rfl h
  | [l], _ => by simp [joinNl]
  | l :: l2 :: ls, _ => by
      show ((l ++ ['\n']) :: ((l2 :: ls).map (fun l => l ++ ['\n']))).flatten =
        (l ++ '\n' :: joinNl (l2 :: ls)) ++ ['\n']
      rw [List.flatten_cons, flatten_map_newline (l2 :: ls) (by simp)]
      simp

/-- C7: for every string built from 9 lines of 9 characters drawn from
`{'1'..'9', '.'}` joined by `'\n'`, parsing succeeds and rendering the
parsed grid gives back the string with one trailing newline appended:
`render(parse(s)) = s ++ "\n"`. -/
theorem c7_render_parse_roundtrip (ls : List (List Char))
    (hcount : ls.length = 9)
    (hlines : ∀ l ∈ ls, l.length = 9 ∧ ∀ c ∈ l, specValidChar c) :
    (parse (joinNl ls)).map render = .ok (joinNl ls ++ ['\n']) := by
  have hspec : ∀ l ∈ ls, ∀ c ∈ l, specValidChar c := fun l hl => (hlines l hl).2
  have hvalid0 : ∀ l ∈ ls, ∀ c ∈ l, validChar0 c :=
    fun l hl c hc => specValid_valid (hspec l hl c hc)
  have hnosep : ∀ l ∈ ls, ∀ c ∈ l, c ≠ '\n' ∧ c ≠ '\r' :=
    fun l hl c hc => specValid_no_sep (hspec l hl c hc)
  have hne : ∀ l ∈ ls, l ≠ [] := by
    intro l hl h
    have h9 := (hlines l hl).1
    rw [h] at h9
    cases h9
  have hne' : ls ≠ [] := by
    intro h
    rw [h] at hcount
    cases hcount
  have hrl : rustLines (joinNl ls) = ls := rustLines_joinNl ls hcount hne hnosep
  have hparse : parse (joinNl ls) = .ok ⟨ls.map (List.map cellOfChar)⟩ := by
    unfold parse
    rw [hrl, if_neg (fun hc => hc hcount)]
    rw [parseRows_ok_of ls (fun l hl =>
      ⟨by rw [utf8Len_eq_length l (hvalid0 l hl)]; exact (hlines l hl).1,
       hvalid0 l hl⟩)]
    rfl
  rw [hparse]
  show Except.ok (render ⟨ls.map (List.map cellOfChar)⟩) = _
  rw [render_rows ls hspec, flatten_map_newline ls hne']

/-- Witness for C7 at the nine lines of the example puzzle. -/
theorem c7_render_parse_roundtrip_witness :
    (parse (joinNl (rustLines examplePuzzle))).map render =
      .ok (joinNl (rustLines examplePuzzle) ++ ['\n']) :=
  c7_render_parse_roundtrip (rustLines examplePuzzle) (by decide) (by decide)
